import Mathlib

/-!
Verification of the policy-enforcement core of the pi-pr-review sandbox
extension: quote-aware command scanning, wildcard allowlisting, git-push
refspec validation, path confinement, diff position mapping, environment
scrubbing and the restricted bash executor.  Each definition is a shallow
embedding of the corresponding JavaScript/TypeScript function.
-/

/-- Character class of the JavaScript `\s` regex class and of
`String.prototype.trim` (ASCII and Unicode whitespace). -/
def isJsSpace (c : Char) : Bool :=
  [' ', '\t', '\n', '\r', '\u000b', '\u000c', '\u00a0', '\u1680',
   '\u2000', '\u2001', '\u2002', '\u2003', '\u2004', '\u2005', '\u2006',
   '\u2007', '\u2008', '\u2009', '\u200a', '\u2028', '\u2029', '\u202f',
   '\u205f', '\u3000', '\ufeff'].contains c

/-- JavaScript `String.prototype.trim`: remove whitespace at both ends. -/
def jsTrim (s : String) : String :=
  String.mk ((((s.data.dropWhile isJsSpace).reverse).dropWhile isJsSpace).reverse)

/-- JavaScript `String.prototype.startsWith`. -/
def strStartsWith (s pre : String) : Bool :=
  pre.data.isPrefixOf s.data

/-- Splitter for the regex `/\r?\n|,/` used by `parseAllowlist`: a separator
is `\r\n`, `\n`, or `,`; a lone `\r` is ordinary text.  The accumulator holds
the current field reversed. -/
def splitSepAux : List Char → List Char → List String
  | [], cur => [String.mk cur.reverse]
  | '\r' :: '\n' :: rest, cur => String.mk cur.reverse :: splitSepAux rest []
  | '\n' :: rest, cur => String.mk cur.reverse :: splitSepAux rest []
  | ',' :: rest, cur => String.mk cur.reverse :: splitSepAux rest []
  | c :: rest, cur => splitSepAux rest (c :: cur)

/-- `parseAllowlist` from the sandbox extension: split the raw allowlist text
on newlines or commas, trim each entry, drop empty entries, drop `#` comment
lines. -/
def parseAllowlist (raw : String) : List String :=
  (((splitSepAux raw.data []).map jsTrim).filter
      (fun s => decide (s ≠ ""))).filter
    (fun s => !(strStartsWith s "#"))

/-- JavaScript `pattern.split("*")`: the segments of the pattern between
literal `*` wildcards.  Always yields at least one (possibly empty) segment. -/
def splitStar : List Char → List (List Char)
  | [] => [[]]
  | c :: rest =>
    if c = '*' then [] :: splitStar rest
    else
      match splitStar rest with
      | [] => [[c]]
      | s :: ss => (c :: s) :: ss

/-- Semantics of the anchored regex `^s₀.*s₁.* … .*sₙ$` that `matchWildcard`
builds from the segments of the pattern (`escapeRegex` makes every segment
literal): the text must start with the first segment and the remaining
segments must match some split of the rest of the text; the last segment must
reach the very end of the text. -/
def segsMatch : List (List Char) → List Char → Bool
  | [], ts => ts.isEmpty
  | [s], ts => ts == s
  | s :: s2 :: ss, ts =>
    s.isPrefixOf ts &&
      (List.range ((ts.drop s.length).length + 1)).any
        (fun k => segsMatch (s2 :: ss) ((ts.drop s.length).drop k))

/-- `matchWildcard` from the sandbox extension: refuse a pattern equal to
`*` or starting with `*`; otherwise test the full-string-anchored regex built
by splitting the pattern on `*`, escaping each segment, and joining the
segments with `.*`. -/
def matchWildcard (pattern text : String) : Bool :=
  if pattern = "*" then false
  else if strStartsWith pattern "*" then false
  else segsMatch (splitStar pattern.data) text.data

/-- Wildcard-pattern semantics as the specification states them: each literal
`*` in the pattern matches zero or more arbitrary characters, every other
pattern character matches itself, and the pattern must cover the entire
text. -/
def globMatch : List Char → List Char → Bool
  | [], ts => ts.isEmpty
  | p :: ps, ts =>
    if p = '*' then
      match ts with
      | [] => globMatch ps []
      | t :: ts' => globMatch ps (t :: ts') || globMatch (p :: ps) ts'
    else
      match ts with
      | [] => false
      | t :: ts' => (p == t) && globMatch ps ts'
termination_by ps ts => ps.length + ts.length
decreasing_by all_goals simp_arith

/-- A NodeJS environment object, as a partial map from variable names to
values. -/
def deleteKey (env : String → Option String) (k : String) : String → Option String :=
  fun x => if x = k then none else env x

/-- `scrubEnv` from the sandbox extension: copy the environment and delete the
ten credential variables, in source order. -/
def scrubEnv (env : String → Option String) : String → Option String :=
  deleteKey (deleteKey (deleteKey (deleteKey (deleteKey (deleteKey (deleteKey
    (deleteKey (deleteKey (deleteKey env
      "OPENROUTER_API_KEY") "ANTHROPIC_API_KEY") "OPENAI_API_KEY")
      "GEMINI_API_KEY") "MISTRAL_API_KEY") "XAI_API_KEY") "CEREBRAS_API_KEY")
      "GITHUB_TOKEN") "GH_TOKEN") "ACTIONS_RUNTIME_TOKEN"

/-- The ten environment variables `scrubEnv` deletes. -/
def scrubbedVars : List String :=
  ["OPENROUTER_API_KEY", "ANTHROPIC_API_KEY", "OPENAI_API_KEY",
   "GEMINI_API_KEY", "MISTRAL_API_KEY", "XAI_API_KEY", "CEREBRAS_API_KEY",
   "GITHUB_TOKEN", "GH_TOKEN", "ACTIONS_RUNTIME_TOKEN"]

/-- Split a character list on a single separator character (JavaScript
`String.prototype.split` with a one-character separator). -/
def splitOnChar (sep : Char) : List Char → List (List Char)
  | [] => [[]]
  | c :: rest =>
    if c = sep then [] :: splitOnChar sep rest
    else
      match splitOnChar sep rest with
      | [] => [[c]]
      | s :: ss => (c :: s) :: ss

/-- The non-empty segments of a POSIX path. -/
def pathSegments (p : String) : List String :=
  ((splitOnChar '/' p.data).map String.mk).filter (fun s => decide (s ≠ ""))

/-- Normalisation pass of `path.posix.resolve` over the segments of an
absolute path: `.` segments vanish and `..` pops the previous segment (at the
root, `..` is ignored).  The second argument is the reversed stack of
segments kept so far. -/
def normSegsAux : List String → List String → List String
  | [], acc => acc.reverse
  | "." :: rest, acc => normSegsAux rest acc
  | ".." :: rest, acc =>
    match acc with
    | [] => normSegsAux rest []
    | _ :: acc' => normSegsAux rest acc'
  | s :: rest, acc => normSegsAux rest (s :: acc)

/-- Resolved segment list of an absolute POSIX path. -/
def resolveSegs (p : String) : List String :=
  normSegsAux (pathSegments p) []

/-- Length of the common prefix of two segment lists. -/
def commonPrefixLen : List String → List String → Nat
  | a :: as, b :: bs => if a = b then commonPrefixLen as bs + 1 else 0
  | _, _ => 0

/-- Join path segments with `/` (no leading slash), as `path.posix.relative`
does when assembling its result. -/
def joinSlash : List String → String
  | [] => ""
  | [s] => s
  | s :: rest => s ++ "/" ++ joinSlash rest

/-- `path.posix.relative` for absolute paths: resolve both paths to segment
lists, drop their common prefix, and emit one `..` per remaining segment of
the source followed by the remaining segments of the destination. -/
def posixRelative (fromP toP : String) : String :=
  let f := resolveSegs fromP
  let t := resolveSegs toP
  let c := commonPrefixLen f t
  joinSlash (List.replicate (f.length - c) ".." ++ t.drop c)

/-- `path.posix.isAbsolute`. -/
def isAbsolutePath (p : String) : Bool :=
  strStartsWith p "/"

/-- `isWithin` from the sandbox extension: the relative path from the allowed
root to the target must be empty, or must neither start with `..` nor be
absolute. -/
def isWithin (root target : String) : Bool :=
  let rel := posixRelative root target
  rel == "" || (!(strStartsWith rel "..") && !(isAbsolutePath rel))

/-- Final containment step of the `tool_call` handler: allow when `isWithin`
holds, otherwise block with a reason naming the resolved path. -/
def containDecision (allowedRoot resolved : String) : Option String :=
  if isWithin allowedRoot resolved then none
  else some ("Blocked: path outside allowed root (" ++ resolved ++ ")")

/-- One-position operator test of `containsShellOperators`: does the command
suffix starting at the current character begin with a shell control operator?
Newline or carriage return, the two-character sequences `&&`, `||`, `$(`, or
a single `;`, `|`, `>`, `<`, backtick, or `&`. -/
def opAtHead : List Char → Bool
  | [] => false
  | c :: rest =>
    if c = '\n' ∨ c = '\r' then true
    else if (c = '&' ∧ rest.head? = some '&') ∨ (c = '|' ∧ rest.head? = some '|')
        ∨ (c = '$' ∧ rest.head? = some '(') then true
    else decide (c = ';' ∨ c = '|' ∨ c = '>' ∨ c = '<' ∨ c = '`' ∨ c = '&')

/-- Character walk of `containsShellOperators` from the sandbox extension:
a backslash consumes the following character outright (in any quoting state);
an unescaped single quote toggles the single-quote state unless inside double
quotes, and symmetrically for double quotes; characters inside either kind of
quote are skipped; otherwise the operator test fires. -/
def csoAux : List Char → Bool → Bool → Bool
  | [], _, _ => false
  | '\\' :: [], _, _ => false
  | '\\' :: _ :: rest, inS, inD => csoAux rest inS inD
  | '\'' :: rest, inS, inD =>
    if inD then csoAux rest inS inD else csoAux rest (!inS) inD
  | '"' :: rest, inS, inD =>
    if inS then csoAux rest inS inD else csoAux rest inS (!inD)
  | c :: rest, inS, inD =>
    if inS || inD then csoAux rest inS inD
    else if opAtHead (c :: rest) then true
    else csoAux rest inS inD

/-- `containsShellOperators` from the sandbox extension. -/
def containsShellOperators (command : String) : Bool :=
  csoAux command.data false false

/-- The scan trace of the quote-aware walk: every character position the
walk examines, as the remaining suffix paired with the single- and
double-quote state at that position.  The character skipped after a backslash is never
examined and gets no entry.  Unlike `csoAux` the trace has no early exit. -/
def scanTrace : List Char → Bool → Bool → List (List Char × Bool × Bool)
  | [], _, _ => []
  | '\\' :: [], inS, inD => [('\\' :: [], inS, inD)]
  | '\\' :: c :: rest, inS, inD => (('\\' :: c :: rest), inS, inD) :: scanTrace rest inS inD
  | '\'' :: rest, inS, inD =>
    (('\'' :: rest), inS, inD) ::
      (if inD then scanTrace rest inS inD else scanTrace rest (!inS) inD)
  | '"' :: rest, inS, inD =>
    (('"' :: rest), inS, inD) ::
      (if inS then scanTrace rest inS inD else scanTrace rest inS (!inD))
  | c :: rest, inS, inD => ((c :: rest), inS, inD) :: scanTrace rest inS inD

/-- `splitArgs` from the sandbox extension: minimal shell-like splitting.
A backslash copies the next character into the current token; quote
characters toggle quoting state and are dropped (a quote character of the
other kind inside a quoted region is kept literally); unquoted whitespace
ends the current token; everything else is appended to the current token. -/
def splitArgsAux : List Char → List Char → Bool → Bool → List String
  | [], cur, _, _ => if cur.isEmpty then [] else [String.mk cur]
  | '\\' :: [], cur, _, _ => if cur.isEmpty then [] else [String.mk cur]
  | '\\' :: c :: rest, cur, inS, inD => splitArgsAux rest (cur ++ [c]) inS inD
  | '\'' :: rest, cur, inS, inD =>
    if inD then splitArgsAux rest (cur ++ ['\'']) inS inD
    else splitArgsAux rest cur (!inS) inD
  | '"' :: rest, cur, inS, inD =>
    if inS then splitArgsAux rest (cur ++ ['"']) inS inD
    else splitArgsAux rest cur inS (!inD)
  | c :: rest, cur, inS, inD =>
    if !inS && !inD && isJsSpace c then
      if cur.isEmpty then splitArgsAux rest [] inS inD
      else String.mk cur :: splitArgsAux rest [] inS inD
    else splitArgsAux rest (cur ++ [c]) inS inD

/-- `splitArgs` from the sandbox extension. -/
def splitArgs (cmd : String) : List String :=
  splitArgsAux cmd.data [] false false

/-- The forbidden `git push` flags of `validateGitPush`. -/
def pushForbiddenFlags : List String :=
  ["--all", "--mirror", "--tags", "--follow-tags", "--delete", "--prune"]

/-- The leading flag tokens of a split `git push` command: the tokens
starting with `-` immediately following the verb pair. -/
def pushLeadingFlags (args : List String) : List String :=
  (args.drop 2).takeWhile (fun a => strStartsWith a "-")

/-- The tokens of a split `git push` command after its leading flags:
remote, refspec, and anything further. -/
def pushAfterFlags (args : List String) : List String :=
  (args.drop 2).dropWhile (fun a => strStartsWith a "-")

/-- Core of `validateGitPush` from the sandbox extension, over the already
split tokens.  `none` means the command passed; `some msg` is the thrown
violation.  The source walks an index over the leading flag tokens; here the
scanned flags are the `-`-prefixed tokens immediately after the verb pair and
the walk's final index points at the first token after them. -/
def validatePushArgs (args : List String) (expectedBranch : String)
    (allowForce : Bool) : Option String :=
  if args.length < 3 then some "Blocked: git push must specify a remote and refspec"
  else if ¬(args.get? 0 = some "git" ∧ args.get? 1 = some "push") then none
  else
    match (pushLeadingFlags args).find? (fun a => pushForbiddenFlags.contains a) with
    | some a => some ("Blocked: forbidden git push flag " ++ a)
    | none =>
      if "--force" ∈ pushLeadingFlags args ∧ allowForce = false then
        some "Blocked: --force is not allowed (use --force-with-lease)"
      else if ¬((pushAfterFlags args).get? 0 = some "origin") then
        some "Blocked: git push remote must be 'origin'"
      else if ¬((pushAfterFlags args).length = 2) then
        some "Blocked: git push must use exactly one refspec"
      else if (pushAfterFlags args).get? 1 = some expectedBranch
          ∨ (pushAfterFlags args).get? 1 = some ("HEAD:" ++ expectedBranch) then none
      else
        some ("Blocked: git push refspec must target the current PR branch ("
          ++ expectedBranch ++ ")")

/-- `validateGitPush` from the sandbox extension: split the command and
validate the resulting tokens. -/
def validateGitPush (command expectedBranch : String) (allowForce : Bool) :
    Option String :=
  validatePushArgs (splitArgs command) expectedBranch allowForce

/-- The acceptance condition for a `git push` command as the claim states it:
at least three tokens; no leading flag from the forbidden set; a bare
`--force` only when force pushes are allowed; the token after the flags is
`origin`; exactly one token follows the remote; and that token is the
expected branch or `HEAD:` followed by the expected branch. -/
def pushAllowedSpec (args : List String) (expectedBranch : String)
    (allowForce : Bool) : Prop :=
  3 ≤ args.length ∧
  (∀ f ∈ pushLeadingFlags args, f ∉ pushForbiddenFlags) ∧
  ("--force" ∈ pushLeadingFlags args → allowForce = true) ∧
  (pushAfterFlags args).get? 0 = some "origin" ∧
  (pushAfterFlags args).length = 2 ∧
  ((pushAfterFlags args).get? 1 = some expectedBranch ∨
    (pushAfterFlags args).get? 1 = some ("HEAD:" ++ expectedBranch))

instance (args : List String) (b : String) (f : Bool) :
    Decidable (pushAllowedSpec args b f) := by
  unfold pushAllowedSpec; infer_instance

/-- Strip one trailing carriage return, as the walker's
`raw.replace(/\r$/, "")` does. -/
def stripCR (l : List Char) : List Char :=
  if l.getLast? = some '\r' then l.dropLast else l

/-- Value of the leading digit run, for the hunk-header regex
`/\+([0-9]+)/`. -/
def digitsVal (l : List Char) : Nat :=
  l.foldl (fun acc c => acc * 10 + (c.toNat - '0'.toNat)) 0

/-- First match of the regex `/\+([0-9]+)/` in a hunk-header line: the value
of the first digit run immediately preceded by `+`. -/
def findPlusNum : List Char → Option Nat
  | [] => none
  | '+' :: rest =>
    match rest with
    | [] => none
    | c :: _ => if c.isDigit then some (digitsVal (rest.takeWhile Char.isDigit))
                else findPlusNum rest
  | _ :: rest => findPlusNum rest

/-- Line walk of `positionForNewLine`: `position` counts every examined line;
a hunk header resets `newLine` from its `+start` component; file-header lines
(`+++ `/`--- `) are skipped; added lines and non-blank context lines advance
`newLine` and are match candidates; removed lines and blank lines are
skipped. -/
def posAux : List (List Char) → Nat → Int → Int → Option Nat
  | [], _, _, _ => none
  | raw :: ls, position, newLine, target =>
    let line := stripCR raw
    if "@@".data.isPrefixOf line then
      match findPlusNum line with
      | some m => posAux ls (position + 1) ((m : Int) - 1) target
      | none => posAux ls (position + 1) newLine target
    else if "+++ ".data.isPrefixOf line ∨ "--- ".data.isPrefixOf line then
      posAux ls (position + 1) newLine target
    else if "+".data.isPrefixOf line then
      if newLine + 1 = target then some (position + 1)
      else posAux ls (position + 1) (newLine + 1) target
    else if "-".data.isPrefixOf line then
      posAux ls (position + 1) newLine target
    else if line = [] then
      posAux ls (position + 1) newLine target
    else
      if newLine + 1 = target then some (position + 1)
      else posAux ls (position + 1) (newLine + 1) target

/-- `positionForNewLine` from the sandbox extension.  An absent or empty
patch (both falsy in the source) yields no position. -/
def positionForNewLine (patch : Option String) (targetLine : Int) : Option Nat :=
  match patch with
  | none => none
  | some s => if s = "" then none else posAux (splitOnChar '\n' s.data) 0 0 targetLine

/-- Output cap of the restricted bash executor: 50 KiB. -/
def MAX_BYTES : Nat := 50 * 1024

/-- Total byte count of a list of buffered chunks. -/
def bufLen (chunks : List (List Nat)) : Nat :=
  (chunks.map List.length).sum

/-- The `while` loop of the executor's data handler: drop the oldest chunk,
marking truncation, while the buffered bytes exceed the cap. -/
def dropOld : List (List Nat) → Bool → List (List Nat) × Bool
  | [], trunc => ([], trunc)
  | c :: cs, trunc =>
    if MAX_BYTES < bufLen (c :: cs) then dropOld cs true else (c :: cs, trunc)

/-- The executor's `onData` handler: append the arriving chunk, then drop
oldest chunks while over the cap. -/
def onData (st : List (List Nat) × Bool) (b : List Nat) : List (List Nat) × Bool :=
  dropOld (st.1 ++ [b]) st.2

/-- Buffer state after a whole sequence of stdout/stderr chunks has
arrived. -/
def collectOutput (stream : List (List Nat)) : List (List Nat) × Bool :=
  stream.foldl onData ([], false)

/-- Reference semantics of the capped buffer: drop oldest chunks while the
total exceeds the cap, in one pass over the final chunk list. -/
def tailUnderCap : List (List Nat) → List (List Nat)
  | [] => []
  | c :: cs => if MAX_BYTES < bufLen (c :: cs) then tailUnderCap cs else c :: cs

/-- Whitespace bytes removed by `trimEnd` (ASCII range). -/
def jsSpaceByte (b : Nat) : Bool :=
  b = 9 || b = 10 || b = 11 || b = 12 || b = 13 || b = 32

/-- `Buffer.concat(chunks).toString().trimEnd()` at byte level: trailing
whitespace bytes are removed. -/
def trimEndBytes (l : List Nat) : List Nat :=
  (l.reverse.dropWhile jsSpaceByte).reverse

/-- The `close` handler of `runRestrictedBash` in the non-timeout case:
exit code (`code ?? 1`), concatenated buffered output with trailing
whitespace trimmed, and the truncation flag. -/
def runRestrictedBashResult (stream : List (List Nat)) (code : Option Int) :
    Int × List Nat × Bool :=
  let st := collectOutput stream
  (code.getD 1, trimEndBytes st.1.flatten, st.2)

/-- The git-push shape test of the restricted bash tool's `execute`. -/
def isGitPushShaped (c : String) : Bool :=
  strStartsWith c "git push " || c == "git push" || strStartsWith c "git push-"

/-- The allowlist gate at the end of the restricted bash tool's `execute`:
spawn (`Except.ok` with the command to run) only when some allowlist pattern
matches. -/
def allowlistGate (allowlist : List String) (command : String) :
    Except String String :=
  if allowlist.any (fun p => matchWildcard p command) then Except.ok command
  else Except.error ("Blocked: bash command not in allowlist: " ++ command)

/-- Decision phase of the restricted bash tool's `execute`, in source order:
parse the allowlist and refuse when it is empty; trim the command and refuse
when it is empty; refuse on shell operators; for a git-push-shaped command
require a configured expected branch and run `validateGitPush`; finally
require an allowlist match.  `Except.ok` carries the command handed to the
process spawn; every `Except.error` is a block decision reached before any
spawn. -/
def executeDecision (allowlistRaw rawCommand expectedBranch : String)
    (allowForce : Bool) : Except String String :=
  let allowlist := parseAllowlist allowlistRaw
  if allowlist.length = 0 then
    Except.error "Blocked: bash is enabled but PI_BASH_ALLOWLIST is empty"
  else
    let command := jsTrim rawCommand
    if command = "" then Except.error "Blocked: empty bash command"
    else if containsShellOperators command then
      Except.error "Blocked: shell operators are not allowed in restricted bash"
    else if isGitPushShaped command then
      if expectedBranch = "" then
        Except.error "Blocked: PI_PR_HEAD_REF is not set for git push validation"
      else
        match validateGitPush command expectedBranch allowForce with
        | some e => Except.error e
        | none => allowlistGate allowlist command
    else allowlistGate allowlist command

/-- The blocking conditions of the restricted bash tool, as the claim lists
them: empty command, empty configured allowlist, shell operators detected,
git-push validation failing or unconfigured, or no allowlist pattern
matching. -/
def executeBlockers (allowlistRaw rawCommand expectedBranch : String)
    (allowForce : Bool) : Prop :=
  jsTrim rawCommand = "" ∨
  parseAllowlist allowlistRaw = [] ∨
  containsShellOperators (jsTrim rawCommand) = true ∨
  (isGitPushShaped (jsTrim rawCommand) = true ∧
    (expectedBranch = "" ∨
      validateGitPush (jsTrim rawCommand) expectedBranch allowForce ≠ none)) ∨
  (∀ p ∈ parseAllowlist allowlistRaw, matchWildcard p (jsTrim rawCommand) = false)

lemma data_hunk : "@@".data = ['@', '@'] := rfl

lemma data_plus3 : "+++ ".data = ['+', '+', '+', ' '] := rfl

lemma data_minus3 : "--- ".data = ['-', '-', '-', ' '] := rfl

lemma data_plus : "+".data = ['+'] := rfl

lemma data_minus : "-".data = ['-'] := rfl

/-- Shifting the walker's position counter shifts every returned position by
exactly the same amount: the counter advances by one per examined line and
is otherwise inert. -/
lemma posAux_shift (ls : List (List Char)) (p : Nat) (n t : Int) :
    posAux ls (p + 1) n t = Option.map (· + 1) (posAux ls p n t) := by
  induction ls generalizing p n with
  | nil => simp [posAux]
  | cons raw ls ih =>
    simp only [posAux]
    split_ifs <;>
      first
        | simp
        | exact ih _ _
        | (cases hf : findPlusNum (stripCR raw) <;> simp [hf, ih])

/-- Claim C10: scrubbing the child environment removes exactly the ten fixed
credential variables and passes every other variable through unchanged. -/
theorem scrubEnv_exact (env : String → Option String) (k : String) :
    (k ∈ scrubbedVars → scrubEnv env k = none) ∧
    (k ∉ scrubbedVars → scrubEnv env k = env k) := by
  constructor
  · intro h
    simp only [scrubbedVars, List.mem_cons, List.not_mem_nil, or_false] at h
    rcases h with rfl|rfl|rfl|rfl|rfl|rfl|rfl|rfl|rfl|rfl <;> simp [scrubEnv, deleteKey]
  · intro h
    simp only [scrubbedVars, List.mem_cons, List.not_mem_nil, or_false, not_or] at h
    obtain ⟨h1, h2, h3, h4, h5, h6, h7, h8, h9, h10⟩ := h
    simp [scrubEnv, deleteKey, h1, h2, h3, h4, h5, h6, h7, h8, h9, h10]

theorem scrubEnv_exact_witness :
    scrubEnv (fun _ => some "v") "GITHUB_TOKEN" = none ∧
    scrubEnv (fun _ => some "v") "PATH" = some "v" :=
  ⟨(scrubEnv_exact (fun _ => some "v") "GITHUB_TOKEN").1 (by decide),
   (scrubEnv_exact (fun _ => some "v") "PATH").2 (by decide)⟩

/-- Claim C4: the containment check succeeds exactly when the relative path
from the allowed root to the resolved path is empty, or neither starts with
`..` nor is absolute; a failing path is blocked with a reason naming the
resolved path. -/
theorem containment_check_spec (root resolved : String) :
    (containDecision root resolved = none ↔
      (posixRelative root resolved = "" ∨
        (strStartsWith (posixRelative root resolved) ".." = false ∧
          isAbsolutePath (posixRelative root resolved) = false))) ∧
    (∀ r, containDecision root resolved = some r →
      r = "Blocked: path outside allowed root (" ++ resolved ++ ")") := by
  have hiff : isWithin root resolved = true ↔
      (posixRelative root resolved = "" ∨
        (strStartsWith (posixRelative root resolved) ".." = false ∧
          isAbsolutePath (posixRelative root resolved) = false)) := by
    simp [isWithin, Bool.or_eq_true, Bool.and_eq_true, Bool.not_eq_true', beq_iff_eq]
  constructor
  · rw [containDecision]
    split_ifs with h
    · exact iff_of_true rfl (hiff.mp h)
    · exact iff_of_false (by simp) (fun hr => h (hiff.mpr hr))
  · intro r hr
    rw [containDecision] at hr
    split_ifs at hr
    exact (Option.some.inj hr).symm

theorem containment_check_spec_witness :
    ("Blocked: path outside allowed root (/etc/passwd)" : String) =
      "Blocked: path outside allowed root (" ++ "/etc/passwd" ++ ")" :=
  (containment_check_spec "/a" "/etc/passwd").2
    "Blocked: path outside allowed root (/etc/passwd)" (by decide)

/-- Counterexample to claim C7: `parseAllowlist` does not reject patterns
equal to `*`; the raw allowlist text `*` parses to the pattern set
containing `*`. -/
theorem parseAllowlist_keeps_star : parseAllowlist "*" = ["*"] := by decide

/-- Claim C7, amended: patterns equal to `*` or starting with `*` survive
parsing, but `matchWildcard` refuses them at match time, so they never
authorize any command. -/
theorem star_patterns_never_match (p t : String)
    (h : p = "*" ∨ strStartsWith p "*" = true) : matchWildcard p t = false := by
  unfold matchWildcard
  split_ifs with h1 h2
  · rfl
  · rfl
  · rcases h with rfl | h
    · exact absurd rfl h1
    · exact absurd h (by simp [h2])

theorem star_patterns_never_match_witness :
    matchWildcard "*" "git status" = false :=
  star_patterns_never_match "*" "git status" (Or.inl rfl)

/-- Counterexample to claim C5: the walker's position counter does count
file-header lines.  Prepending the two file-header lines `--- a` and
`+++ b` to a patch shifts the returned position from 2 to 4, so the
position returned for a target line does count preceding file-header
lines, contrary to the claim. -/
theorem position_counts_file_headers :
    positionForNewLine (some "--- a\n+++ b\n@@ -1 +1 @@\n+x") 1 = some 4 ∧
    positionForNewLine (some "@@ -1 +1 @@\n+x") 1 = some 2 := by decide

/-- Claim C5, amended: the position counter increments exactly once per line
examined, including hunk-header lines and also file-header lines beginning
`+++ ` or `--- ` (which are skipped as match candidates but still advance
the counter); the returned position therefore counts every patch line
preceding the match, file headers included.  The first two conjuncts show a
file-header line and a hunk-header line each consume exactly one position;
the third shows each position unit shifts every returned position by one. -/
theorem posAux_counts_every_line :
    (∀ (l : List Char) (ls : List (List Char)) (p : Nat) (n t : Int),
        ("+++ ".data.isPrefixOf (stripCR l) = true ∨
          "--- ".data.isPrefixOf (stripCR l) = true) →
        posAux (l :: ls) p n t = posAux ls (p + 1) n t) ∧
    (∀ (l : List Char) (ls : List (List Char)) (p : Nat) (n t : Int),
        "@@".data.isPrefixOf (stripCR l) = true →
        posAux (l :: ls) p n t =
          posAux ls (p + 1)
            (match findPlusNum (stripCR l) with
             | some m => (m : Int) - 1
             | none => n) t) ∧
    (∀ (ls : List (List Char)) (p : Nat) (n t : Int),
        posAux ls (p + 1) n t = Option.map (· + 1) (posAux ls p n t)) := by
  refine ⟨?_, ?_, posAux_shift⟩
  · intro l ls p n t h
    have hcons : ∃ c rest, stripCR l = c :: rest ∧ (c = '+' ∨ c = '-') := by
      rcases h with h | h
      · cases hsc : stripCR l with
        | nil => rw [hsc] at h; simp [data_plus3, List.isPrefixOf] at h
        | cons c rest =>
          rw [hsc, data_plus3] at h
          simp [List.isPrefixOf, Bool.and_eq_true, beq_iff_eq] at h
          exact ⟨c, rest, rfl, Or.inl h.1.symm⟩
      · cases hsc : stripCR l with
        | nil => rw [hsc] at h; simp [data_minus3, List.isPrefixOf] at h
        | cons c rest =>
          rw [hsc, data_minus3] at h
          simp [List.isPrefixOf, Bool.and_eq_true, beq_iff_eq] at h
          exact ⟨c, rest, rfl, Or.inr h.1.symm⟩
    obtain ⟨c, rest, hsc, hc⟩ := hcons
    have hat : "@@".data.isPrefixOf (stripCR l) = false := by
      rw [hsc, data_hunk]
      rcases hc with rfl | rfl <;> simp [List.isPrefixOf]
    simp only [posAux]
    rw [if_neg (by simp [hat]), if_pos h]
  · intro l ls p n t h
    cases hm : findPlusNum (stripCR l) <;> simp [posAux, h, hm]

theorem posAux_counts_every_line_witness :
    posAux ["--- a".data, "+x".data] 0 0 1 = posAux ["+x".data] 1 0 1 :=
  posAux_counts_every_line.1 "--- a".data ["+x".data] 0 0 1 (Or.inr (by decide))

/-- Counterexample to claim C6: a blank line is not a match candidate and
does not advance `newLine`.  In this patch the blank second line would be
new-file line 1 at position 2 if blank lines were counted as context; the
walker instead skips it and matches target 1 at position 3. -/
theorem blank_line_not_counted :
    positionForNewLine (some "@@ -1,2 +1,2 @@\n\nx") 1 = some 3 ∧
    positionForNewLine (some "@@ -1,2 +1,2 @@\n\nx") 1 ≠ some 2 := by decide

/-- Claim C6, amended: added lines and non-blank context lines advance
`newLine` and are compared against the target; removed lines leave `newLine`
unchanged and are never match candidates; blank lines (empty after CR
stripping) are also skipped without advancing `newLine`; and a target line
that only ever appears as a removed line yields no position. -/
theorem posAux_line_kinds :
    (∀ (l : List Char) (ls : List (List Char)) (p : Nat) (n t : Int),
        "-".data.isPrefixOf (stripCR l) = true →
        "--- ".data.isPrefixOf (stripCR l) = false →
        posAux (l :: ls) p n t = posAux ls (p + 1) n t) ∧
    (∀ (l : List Char) (ls : List (List Char)) (p : Nat) (n t : Int),
        "+".data.isPrefixOf (stripCR l) = true →
        "+++ ".data.isPrefixOf (stripCR l) = false →
        posAux (l :: ls) p n t =
          (if n + 1 = t then some (p + 1) else posAux ls (p + 1) (n + 1) t)) ∧
    (∀ (l : List Char) (ls : List (List Char)) (p : Nat) (n t : Int),
        "@@".data.isPrefixOf (stripCR l) = false →
        "+".data.isPrefixOf (stripCR l) = false →
        "-".data.isPrefixOf (stripCR l) = false →
        stripCR l ≠ [] →
        posAux (l :: ls) p n t =
          (if n + 1 = t then some (p + 1) else posAux ls (p + 1) (n + 1) t)) ∧
    (∀ (l : List Char) (ls : List (List Char)) (p : Nat) (n t : Int),
        stripCR l = [] →
        posAux (l :: ls) p n t = posAux ls (p + 1) n t) ∧
    positionForNewLine (some "@@ -1,3 +1,1 @@\n ctx\n-a\n-b") 2 = none := by
  refine ⟨?_, ?_, ?_, ?_, by decide⟩
  · intro l ls p n t h hm3
    obtain ⟨rest, hsc⟩ : ∃ rest, stripCR l = '-' :: rest := by
      cases hsc : stripCR l with
      | nil => rw [hsc] at h; simp [data_minus, List.isPrefixOf] at h
      | cons c rest =>
        rw [hsc, data_minus] at h
        simp [List.isPrefixOf, beq_iff_eq] at h
        exact ⟨rest, by rw [← h]⟩
    have hat : "@@".data.isPrefixOf (stripCR l) = false := by
      rw [hsc, data_hunk]; simp [List.isPrefixOf]
    have hp3 : "+++ ".data.isPrefixOf (stripCR l) = false := by
      rw [hsc, data_plus3]; simp [List.isPrefixOf]
    have hp1 : "+".data.isPrefixOf (stripCR l) = false := by
      rw [hsc, data_plus]; simp [List.isPrefixOf]
    simp only [posAux]
    rw [if_neg (by simp [hat]), if_neg (by simp [hp3, hm3]), if_neg (by simp [hp1]),
      if_pos (by simp [h])]
  · intro l ls p n t h hp3
    obtain ⟨rest, hsc⟩ : ∃ rest, stripCR l = '+' :: rest := by
      cases hsc : stripCR l with
      | nil => rw [hsc] at h; simp [data_plus, List.isPrefixOf] at h
      | cons c rest =>
        rw [hsc, data_plus] at h
        simp [List.isPrefixOf, beq_iff_eq] at h
        exact ⟨rest, by rw [← h]⟩
    have hat : "@@".data.isPrefixOf (stripCR l) = false := by
      rw [hsc, data_hunk]; simp [List.isPrefixOf]
    have hm3 : "--- ".data.isPrefixOf (stripCR l) = false := by
      rw [hsc, data_minus3]; simp [List.isPrefixOf]
    simp only [posAux]
    rw [if_neg (by simp [hat]), if_neg (by simp [hp3, hm3]), if_pos (by simp [h])]
  · intro l ls p n t hat hp1 hm1 hne
    have hp3 : "+++ ".data.isPrefixOf (stripCR l) = false := by
      cases hsc : stripCR l with
      | nil => simp [data_plus3, List.isPrefixOf]
      | cons c rest =>
        rw [hsc] at hp1
        rw [data_plus3]
        rw [data_plus] at hp1
        simp [List.isPrefixOf, beq_iff_eq] at hp1 ⊢
        intro hc
        exact absurd hc hp1
    have hm3 : "--- ".data.isPrefixOf (stripCR l) = false := by
      cases hsc : stripCR l with
      | nil => simp [data_minus3, List.isPrefixOf]
      | cons c rest =>
        rw [hsc] at hm1
        rw [data_minus3]
        rw [data_minus] at hm1
        simp [List.isPrefixOf, beq_iff_eq] at hm1 ⊢
        intro hc
        exact absurd hc hm1
    simp only [posAux]
    rw [if_neg (by simp [hat]), if_neg (by simp [hp3, hm3]), if_neg (by simp [hp1]),
      if_neg (by simp [hm1]), if_neg hne]
  · intro l ls p n t hsc
    have hat : "@@".data.isPrefixOf (stripCR l) = false := by
      rw [hsc, data_hunk]; simp [List.isPrefixOf]
    have hp3 : "+++ ".data.isPrefixOf (stripCR l) = false := by
      rw [hsc, data_plus3]; simp [List.isPrefixOf]
    have hm3 : "--- ".data.isPrefixOf (stripCR l) = false := by
      rw [hsc, data_minus3]; simp [List.isPrefixOf]
    have hp1 : "+".data.isPrefixOf (stripCR l) = false := by
      rw [hsc, data_plus]; simp [List.isPrefixOf]
    have hm1 : "-".data.isPrefixOf (stripCR l) = false := by
      rw [hsc, data_minus]; simp [List.isPrefixOf]
    simp only [posAux]
    rw [if_neg (by simp [hat]), if_neg (by simp [hp3, hm3]), if_neg (by simp [hp1]),
      if_neg (by simp [hm1]), if_pos hsc]

theorem posAux_line_kinds_witness :
    posAux ["-gone".data] 0 0 1 = posAux [] 1 0 1 :=
  posAux_line_kinds.1 "-gone".data [] 0 0 1 (by decide) (by decide)

/-- The early-exit scan of `csoAux` fires exactly when some examined position
of the trace is outside both kinds of quotes and starts with an operator. -/
lemma csoAux_eq_trace (l : List Char) (inS inD : Bool) :
    csoAux l inS inD =
      (scanTrace l inS inD).any (fun e => !e.2.1 && !e.2.2 && opAtHead e.1) := by
  induction l, inS, inD using csoAux.induct with
  | case1 inS inD => simp [csoAux, scanTrace]
  | case2 inS inD => simp [csoAux, scanTrace, opAtHead]
  | case3 c rest inS inD ih => simp [csoAux, scanTrace, opAtHead, ih]
  | case4 rest inS ih => simp [csoAux, scanTrace, opAtHead, ih]
  | case5 rest inS inD hd ih =>
    have hd' : inD = false := by simpa using hd
    subst hd'
    simp [csoAux, scanTrace, opAtHead, ih]
  | case6 rest inD ih => simp [csoAux, scanTrace, opAtHead, ih]
  | case7 rest inS inD hs ih =>
    have hs' : inS = false := by simpa using hs
    subst hs'
    simp [csoAux, scanTrace, opAtHead, ih]
  | case8 c rest inS inD h1 h2 h3 h4 hq ih =>
    rw [csoAux.eq_6 _ _ _ _ h1 h2 h3 h4, scanTrace.eq_6 _ _ _ _ h1 h2 h3 h4, if_pos hq]
    cases inS <;> cases inD <;> simp_all
  | case9 c rest inS inD h1 h2 h3 h4 hq hop =>
    rw [csoAux.eq_6 _ _ _ _ h1 h2 h3 h4, scanTrace.eq_6 _ _ _ _ h1 h2 h3 h4,
      if_neg hq, if_pos hop]
    cases inS <;> cases inD <;> simp_all
  | case10 c rest inS inD h1 h2 h3 h4 hq hop ih =>
    rw [csoAux.eq_6 _ _ _ _ h1 h2 h3 h4, scanTrace.eq_6 _ _ _ _ h1 h2 h3 h4,
      if_neg hq, if_neg hop]
    cases inS <;> cases inD <;> simp_all

/-- Claim C2: the shell-operator detector returns true exactly when some
examined character position outside single quotes and outside double quotes
(backslash-escaped characters being consumed without affecting the quoting
state, hence never examined) starts with a newline, carriage return, `;`,
`|`, `>`, `<`, backtick, bare `&`, or one of `&&`, `||`, `$(`; and in
particular a quoted operator does not trigger while an unquoted one does. -/
theorem containsShellOperators_spec :
    (∀ cmd : String,
        containsShellOperators cmd = true ↔
          ∃ e ∈ scanTrace cmd.data false false,
            e.2.1 = false ∧ e.2.2 = false ∧ opAtHead e.1 = true) ∧
    containsShellOperators "git commit -m \"a && b\"" = false ∧
    containsShellOperators "git status; rm -rf /" = true := by
  refine ⟨?_, by decide, by decide⟩
  intro cmd
  rw [containsShellOperators, csoAux_eq_trace, List.any_eq_true]
  constructor
  · rintro ⟨e, he, hp⟩
    simp only [Bool.and_eq_true, Bool.not_eq_true'] at hp
    exact ⟨e, he, hp.1.1, hp.1.2, hp.2⟩
  · rintro ⟨e, he, h1, h2, h3⟩
    exact ⟨e, he, by simp [h1, h2, h3]⟩

/-- Claim C9: the allow/block decision strictly precedes any spawn.  A spawn
is the `Except.ok` outcome of the decision phase; it happens only when none
of the blocking conditions holds, and under any blocking condition — empty
command, empty allowlist, shell operators, failing or unconfigured git-push
validation, or no allowlist match — the call is blocked with an error and no
spawn outcome exists. -/
theorem executeDecision_blocks (raw cmd br : String) (force : Bool) :
    (∀ s, executeDecision raw cmd br force = Except.ok s →
        s = jsTrim cmd ∧ ¬executeBlockers raw cmd br force) ∧
    (executeBlockers raw cmd br force →
        ∃ e, executeDecision raw cmd br force = Except.error e) := by
  have main : (∃ e, executeDecision raw cmd br force = Except.error e) ∨
      (executeDecision raw cmd br force = Except.ok (jsTrim cmd) ∧
        ¬executeBlockers raw cmd br force) := by
    rw [executeDecision]
    simp only []
    split_ifs with hLen hTrim hOps hShape hBr
    · exact Or.inl ⟨_, rfl⟩
    · exact Or.inl ⟨_, rfl⟩
    · exact Or.inl ⟨_, rfl⟩
    · exact Or.inl ⟨_, rfl⟩
    · rcases hv : validateGitPush (jsTrim cmd) br force with _ | e
      · rw [allowlistGate]
        split_ifs with hMatch
        · refine Or.inr ⟨rfl, ?_⟩
          rw [executeBlockers]
          push_neg
          rcases List.any_eq_true.1 hMatch with ⟨p, hp, hmw⟩
          refine ⟨hTrim, ?_, by simp [hOps], ?_, ?_⟩
          · intro hnil
            rw [hnil] at hLen
            exact hLen rfl
          · intro _
            exact ⟨hBr, hv⟩
          · exact ⟨p, hp, by simp [hmw]⟩
        · exact Or.inl ⟨_, rfl⟩
      · exact Or.inl ⟨_, rfl⟩
    · rw [allowlistGate]
      split_ifs with hMatch
      · refine Or.inr ⟨rfl, ?_⟩
        rw [executeBlockers]
        push_neg
        rcases List.any_eq_true.1 hMatch with ⟨p, hp, hmw⟩
        refine ⟨hTrim, ?_, by simp [hOps], ?_, ?_⟩
        · intro hnil
          rw [hnil] at hLen
          exact hLen rfl
        · intro hsh
          exact absurd hsh hShape
        · exact ⟨p, hp, by simp [hmw]⟩
      · exact Or.inl ⟨_, rfl⟩
  constructor
  · intro s hs
    rcases main with ⟨e, he⟩ | ⟨hok, hnb⟩
    · rw [hs] at he
      exact absurd he (by simp)
    · rw [hs] at hok
      exact ⟨Except.ok.inj hok, hnb⟩
  · intro hb
    rcases main with h | ⟨_, hnb⟩
    · exact h
    · exact absurd hb hnb

theorem executeDecision_blocks_witness :
    ∃ e, executeDecision "" "git status" "" false = Except.error e :=
  (executeDecision_blocks "" "git status" "" false).2
    (Or.inr (Or.inl (by decide)))

/-- On token lists beginning `git push`, the validator accepts exactly the
commands satisfying the claim's acceptance condition. -/
lemma validatePushArgs_iff (args : List String) (branch : String) (force : Bool)
    (h0 : args.get? 0 = some "git") (h1 : args.get? 1 = some "push") :
    validatePushArgs args branch force = none ↔ pushAllowedSpec args branch force := by
  rcases args with _ | ⟨a0, args⟩
  · simp at h0
  rcases args with _ | ⟨a1, t⟩
  · simp at h1
  simp only [List.get?] at h0 h1
  obtain rfl : a0 = "git" := Option.some.inj h0
  obtain rfl : a1 = "push" := Option.some.inj h1
  rcases t with _ | ⟨x, t'⟩
  · refine iff_of_false (by simp [validatePushArgs]) (fun hs => ?_)
    have h3 := hs.1
    simp at h3
  rw [validatePushArgs]
  rw [if_neg (by simp), if_neg (by simp)]
  rcases hf : (pushLeadingFlags ("git" :: "push" :: x :: t')).find?
      (fun a => pushForbiddenFlags.contains a) with _ | fl
  · have hnoforb : ∀ f ∈ pushLeadingFlags ("git" :: "push" :: x :: t'),
        f ∉ pushForbiddenFlags := by
      intro f hmem hforb
      have hne := List.find?_eq_none.1 hf f hmem
      simp at hne
      exact hne hforb
    by_cases hforce :
        ("--force" ∈ pushLeadingFlags ("git" :: "push" :: x :: t') ∧ force = false)
    · rw [if_pos hforce]
      refine iff_of_false (by simp) (fun hs => ?_)
      have hft := hs.2.2.1 hforce.1
      have hff := hforce.2
      rw [hft] at hff
      simp at hff
    · rw [if_neg hforce]
      by_cases hremote :
          (pushAfterFlags ("git" :: "push" :: x :: t')).get? 0 = some "origin"
      · rw [if_neg (not_not.2 hremote)]
        by_cases hcount : (pushAfterFlags ("git" :: "push" :: x :: t')).length = 2
        · rw [if_neg (not_not.2 hcount)]
          by_cases hrefspec :
              ((pushAfterFlags ("git" :: "push" :: x :: t')).get? 1 = some branch ∨
                (pushAfterFlags ("git" :: "push" :: x :: t')).get? 1 =
                  some ("HEAD:" ++ branch))
          · rw [if_pos hrefspec]
            refine iff_of_true rfl ⟨by simp, hnoforb, ?_, hremote, hcount, hrefspec⟩
            intro hmem
            cases hfv : force with
            | false => exact absurd ⟨hmem, hfv⟩ hforce
            | true => rfl
          · rw [if_neg hrefspec]
            exact iff_of_false (by simp) (fun hs => hrefspec hs.2.2.2.2.2)
        · rw [if_pos hcount]
          exact iff_of_false (by simp) (fun hs => hcount hs.2.2.2.2.1)
      · rw [if_pos hremote]
        exact iff_of_false (by simp) (fun hs => hremote hs.2.2.2.1)
  · have hmem := List.mem_of_find?_eq_some hf
    have hcont := List.find?_some hf
    have hforb : fl ∈ pushForbiddenFlags := by simpa using hcont
    exact iff_of_false (by simp) (fun hs => hs.2.1 fl hmem hforb)

/-- Claim C1: for a command whose first two tokens under quote-aware
splitting are `git` and `push`, `validateGitPush` yields no violation
exactly when the token list satisfies the claim's acceptance condition:
at least three tokens, no forbidden leading flag, bare `--force` only when
allowed, remote `origin`, exactly one refspec token, and that token equal
to the expected branch or `HEAD:` followed by it. -/
theorem validateGitPush_iff (cmd branch : String) (force : Bool)
    (h0 : (splitArgs cmd).get? 0 = some "git")
    (h1 : (splitArgs cmd).get? 1 = some "push") :
    validateGitPush cmd branch force = none ↔
      pushAllowedSpec (splitArgs cmd) branch force := by
  rw [validateGitPush]
  exact validatePushArgs_iff (splitArgs cmd) branch force h0 h1

theorem validateGitPush_iff_witness :
    ((splitArgs "git push origin feature-x").get? 0 = some "git" ∧
      (splitArgs "git push origin feature-x").get? 1 = some "push") ∧
    (validateGitPush "git push origin feature-x" "feature-x" false = none ↔
      pushAllowedSpec (splitArgs "git push origin feature-x") "feature-x" false) :=
  ⟨⟨by decide, by decide⟩,
   validateGitPush_iff "git push origin feature-x" "feature-x" false
     (by decide) (by decide)⟩

/-- `*` at the head of a pattern matches an arbitrary prefix: star
unfolding for the specification-side wildcard semantics. -/
lemma globMatch_star (ps ts : List Char) :
    globMatch ('*' :: ps) ts = true ↔ ∃ k, globMatch ps (ts.drop k) = true := by
  induction ts with
  | nil =>
    constructor
    · intro h
      exact ⟨0, by simpa [globMatch] using h⟩
    · rintro ⟨k, hk⟩
      simp only [List.drop_nil] at hk
      simpa [globMatch] using hk
  | cons t ts ih =>
    have hstep : globMatch ('*' :: ps) (t :: ts) =
        (globMatch ps (t :: ts) || globMatch ('*' :: ps) ts) := by
      simp [globMatch]
    rw [hstep]
    constructor
    · intro h
      rcases Bool.or_eq_true_iff.1 h with h | h
      · exact ⟨0, by simpa using h⟩
      · rcases ih.1 h with ⟨k, hk⟩
        exact ⟨k + 1, by simpa using hk⟩
    · rintro ⟨k, hk⟩
      rcases k with _ | k
      · simp only [List.drop_zero] at hk
        simp [hk]
      · have := ih.2 ⟨k, by simpa using hk⟩
        simp [this]

/-- A star-free pattern matches only itself. -/
lemma globMatch_noStar (p : List Char) (h : '*' ∉ p) (ts : List Char) :
    globMatch p ts = true ↔ ts = p := by
  induction p generalizing ts with
  | nil => cases ts <;> simp [globMatch]
  | cons c p ih =>
    rw [List.mem_cons, not_or] at h
    have hc : ¬(c = '*') := fun e => h.1 e.symm
    cases ts with
    | nil => simp [globMatch, hc]
    | cons t ts =>
      have hg := ih h.2 ts
      rw [show globMatch (c :: p) (t :: ts) = ((c == t) && globMatch p ts) from by
        simp [globMatch, hc]]
      rw [Bool.and_eq_true, beq_iff_eq, hg, List.cons_eq_cons]
      constructor
      · rintro ⟨h1, h2⟩
        exact ⟨h1.symm, h2⟩
      · rintro ⟨h1, h2⟩
        exact ⟨h1.symm, h2⟩

/-- `split("*")` always yields at least one segment. -/
lemma splitStar_ne_nil (l : List Char) : splitStar l ≠ [] := by
  cases l with
  | nil => simp [splitStar]
  | cons c rest =>
    simp only [splitStar]
    split_ifs
    · simp
    · rcases h : splitStar rest with _ | ⟨s, ss⟩ <;> simp [h]

/-- The anchored segment regex built from `split("*")` recognises exactly the
wildcard language of the pattern. -/
lemma segsMatch_splitStar (p : List Char) : ∀ ts,
    segsMatch (splitStar p) ts = true ↔ globMatch p ts = true := by
  induction p with
  | nil =>
    intro ts
    cases ts <;> simp [splitStar, segsMatch, globMatch]
  | cons c rest ih =>
    intro ts
    by_cases hc : c = '*'
    · subst hc
      rw [show splitStar ('*' :: rest) = [] :: splitStar rest from by simp [splitStar]]
      rcases hsp : splitStar rest with _ | ⟨s2, ss⟩
      · exact absurd hsp (splitStar_ne_nil rest)
      rw [globMatch_star]
      rw [show segsMatch ([] :: s2 :: ss) ts =
            (List.range (ts.length + 1)).any (fun k => segsMatch (s2 :: ss) (ts.drop k))
          from by simp [segsMatch]]
      rw [List.any_eq_true]
      constructor
      · rintro ⟨k, _, hm⟩
        exact ⟨k, (hsp ▸ ih (ts.drop k)).1 hm⟩
      · rintro ⟨k, hm⟩
        by_cases hk : k ≤ ts.length
        · refine ⟨k, by simp [List.mem_range]; omega, (hsp ▸ ih (ts.drop k)).2 hm⟩
        · refine ⟨ts.length, by simp, ?_⟩
          have h1 : ts.drop k = [] := List.drop_eq_nil_of_le (by omega)
          have h2 : ts.drop ts.length = [] := List.drop_eq_nil_of_le (le_refl _)
          rw [h1] at hm
          rw [h2]
          exact (hsp ▸ ih ([] : List Char)).2 hm
    · rcases hsp : splitStar rest with _ | ⟨s, ss⟩
      · exact absurd hsp (splitStar_ne_nil rest)
      rw [show splitStar (c :: rest) = (c :: s) :: ss from by simp [splitStar, hc, hsp]]
      rcases ss with _ | ⟨s2, ss'⟩
      · cases ts with
        | nil => simp [segsMatch, globMatch, hc]
        | cons t ts' =>
          have hg : globMatch rest ts' = true ↔ ts' = s := by
            have hih := ih ts'
            rw [hsp] at hih
            rw [← hih]
            rw [show segsMatch [s] ts' = (ts' == s) from by simp [segsMatch]]
            rw [beq_iff_eq]
          rw [show segsMatch [c :: s] (t :: ts') = (t :: ts' == c :: s) from by
            simp [segsMatch]]
          rw [show globMatch (c :: rest) (t :: ts') = ((c == t) && globMatch rest ts')
            from by simp [globMatch, hc]]
          rw [beq_iff_eq, List.cons_eq_cons, Bool.and_eq_true, beq_iff_eq, hg]
          constructor
          · rintro ⟨h1, h2⟩
            exact ⟨h1.symm, h2⟩
          · rintro ⟨h1, h2⟩
            exact ⟨h1.symm, h2⟩
      · cases ts with
        | nil =>
          simp [segsMatch, globMatch, hc, List.isPrefixOf]
        | cons t ts' =>
          have hih := ih ts'
          rw [hsp] at hih
          rw [show segsMatch (s :: s2 :: ss') ts' =
              (s.isPrefixOf ts' &&
                (List.range ((ts'.drop s.length).length + 1)).any
                  (fun k => segsMatch (s2 :: ss') ((ts'.drop s.length).drop k)))
            from by simp [segsMatch]] at hih
          rw [show segsMatch ((c :: s) :: s2 :: ss') (t :: ts') =
              ((c :: s).isPrefixOf (t :: ts') &&
                (List.range (((t :: ts').drop ((c :: s).length)).length + 1)).any
                  (fun k => segsMatch (s2 :: ss')
                    (((t :: ts').drop ((c :: s).length)).drop k)))
            from by simp [segsMatch]]
          rw [show (t :: ts').drop ((c :: s).length) = ts'.drop s.length from by
            simp [List.drop_succ_cons]]
          rw [show (c :: s).isPrefixOf (t :: ts') = ((c == t) && s.isPrefixOf ts')
            from by simp [List.isPrefixOf]]
          rw [show globMatch (c :: rest) (t :: ts') = ((c == t) && globMatch rest ts')
            from by simp [globMatch, hc]]
          simp only [Bool.and_eq_true, beq_iff_eq] at hih ⊢
          tauto

/-- Claim C3: `matchWildcard` authorizes a command only when the pattern
matches the entire command under wildcard semantics (each literal `*`
matching zero or more arbitrary characters, every other character matching
itself); partial matches never authorize.  In particular `git status`
authorizes only the exact string `git status`, and `git diff *` authorizes
`git diff --stat` and `git diff HEAD` but not the bare `git diff`. -/
theorem matchWildcard_spec :
    (∀ p t : String, matchWildcard p t = true → globMatch p.data t.data = true) ∧
    (∀ t : String, matchWildcard "git status" t = true ↔ t = "git status") ∧
    matchWildcard "git diff *" "git diff --stat" = true ∧
    matchWildcard "git diff *" "git diff HEAD" = true ∧
    matchWildcard "git diff *" "git diff" = false := by
  refine ⟨?_, ?_, by decide, by decide, by decide⟩
  · intro p t h
    rw [matchWildcard] at h
    split_ifs at h
    exact (segsMatch_splitStar p.data t.data).1 h
  · intro t
    have h1 : matchWildcard "git status" t = true ↔
        globMatch "git status".data t.data = true := by
      rw [matchWildcard]
      rw [if_neg (by decide), if_neg (by decide)]
      exact segsMatch_splitStar "git status".data t.data
    rw [h1, globMatch_noStar "git status".data (by decide) t.data]
    constructor
    · intro h
      exact String.ext h
    · intro h
      rw [h]

theorem matchWildcard_spec_witness :
    globMatch "git diff *".data "git diff HEAD".data = true :=
  matchWildcard_spec.1 "git diff *" "git diff HEAD" (by decide)

lemma bufLen_append (a b : List (List Nat)) : bufLen (a ++ b) = bufLen a + bufLen b := by
  simp [bufLen]

/-- A buffer already under the cap is left untouched. -/
lemma dropOld_of_le (l : List (List Nat)) (t : Bool) (h : bufLen l ≤ MAX_BYTES) :
    dropOld l t = (l, t) := by
  cases l with
  | nil => rfl
  | cons c cs => simp [dropOld, Nat.not_lt.2 h]

lemma tailUnderCap_of_le (l : List (List Nat)) (h : bufLen l ≤ MAX_BYTES) :
    tailUnderCap l = l := by
  cases l with
  | nil => rfl
  | cons c cs => simp [tailUnderCap, Nat.not_lt.2 h]

lemma dropOld_fst (l : List (List Nat)) (t : Bool) :
    (dropOld l t).1 = tailUnderCap l := by
  induction l generalizing t with
  | nil => rfl
  | cons c cs ih =>
    simp only [dropOld, tailUnderCap]
    split_ifs
    · exact ih true
    · rfl

lemma dropOld_snd (l : List (List Nat)) (t : Bool) :
    (dropOld l t).2 = (t || decide (MAX_BYTES < bufLen l)) := by
  induction l generalizing t with
  | nil => simp [dropOld, bufLen, MAX_BYTES]
  | cons c cs ih =>
    simp only [dropOld]
    split_ifs with h
    · rw [ih true]
      simp [h]
    · simp [h]

lemma tailUnderCap_le (l : List (List Nat)) : bufLen (tailUnderCap l) ≤ MAX_BYTES := by
  induction l with
  | nil => simp [tailUnderCap, bufLen]
  | cons c cs ih =>
    simp only [tailUnderCap]
    split_ifs with h
    · exact ih
    · exact Nat.not_lt.1 h

lemma tailUnderCap_suffix (l : List (List Nat)) : ∃ k, tailUnderCap l = l.drop k := by
  induction l with
  | nil => exact ⟨0, rfl⟩
  | cons c cs ih =>
    simp only [tailUnderCap]
    split_ifs with h
    · rcases ih with ⟨k, hk⟩
      exact ⟨k + 1, by simpa using hk⟩
    · exact ⟨0, rfl⟩

/-- Dropping from the front before new data arrives commutes with dropping
at the end: chunks evicted from an over-cap buffer stay evicted. -/
lemma tailUnderCap_append (a b : List (List Nat)) :
    tailUnderCap (tailUnderCap a ++ b) = tailUnderCap (a ++ b) := by
  induction a with
  | nil => rfl
  | cons c cs ih =>
    by_cases h : MAX_BYTES < bufLen (c :: cs)
    · rw [show tailUnderCap (c :: cs) = tailUnderCap cs from by simp [tailUnderCap, h]]
      rw [show tailUnderCap ((c :: cs) ++ b) = tailUnderCap (cs ++ b) from by
        have hb : MAX_BYTES < bufLen ((c :: cs) ++ b) := by
          rw [bufLen_append]
          omega
        simpa [tailUnderCap] using fun hh => absurd hb (by simpa using hh)]
      exact ih
    · rw [tailUnderCap_of_le _ (Nat.not_lt.1 h)]

/-- The incremental folded buffer equals the one-pass drop over the whole
stream appended to the initial buffer. -/
lemma collect_fst (stream : List (List Nat)) :
    ∀ (c0 : List (List Nat)) (t0 : Bool), bufLen c0 ≤ MAX_BYTES →
      (List.foldl onData (c0, t0) stream).1 = tailUnderCap (c0 ++ stream) := by
  induction stream with
  | nil =>
    intro c0 t0 h
    simp [tailUnderCap_of_le c0 h]
  | cons b rest ih =>
    intro c0 t0 h
    rw [List.foldl_cons]
    rw [show onData (c0, t0) b = (tailUnderCap (c0 ++ [b]),
        (t0 || decide (MAX_BYTES < bufLen (c0 ++ [b])))) from by
      rw [onData]
      rw [show dropOld (c0 ++ [b]) t0 =
          ((dropOld (c0 ++ [b]) t0).1, (dropOld (c0 ++ [b]) t0).2) from rfl]
      rw [dropOld_fst, dropOld_snd]]
    rw [ih _ _ (tailUnderCap_le _), tailUnderCap_append]
    rw [show (c0 ++ [b]) ++ rest = c0 ++ b :: rest from by simp]

/-- The truncation flag is set exactly when the total stream size exceeds
the cap. -/
lemma collect_snd (stream : List (List Nat)) :
    ∀ (c0 : List (List Nat)) (t0 : Bool), bufLen c0 ≤ MAX_BYTES →
      (List.foldl onData (c0, t0) stream).2 =
        (t0 || decide (MAX_BYTES < bufLen (c0 ++ stream))) := by
  induction stream with
  | nil =>
    intro c0 t0 h
    simp [Nat.not_lt.2 h]
  | cons b rest ih =>
    intro c0 t0 h
    rw [List.foldl_cons]
    rw [show onData (c0, t0) b = (tailUnderCap (c0 ++ [b]),
        (t0 || decide (MAX_BYTES < bufLen (c0 ++ [b])))) from by
      rw [onData]
      rw [show dropOld (c0 ++ [b]) t0 =
          ((dropOld (c0 ++ [b]) t0).1, (dropOld (c0 ++ [b]) t0).2) from rfl]
      rw [dropOld_fst, dropOld_snd]]
    rw [ih _ _ (tailUnderCap_le _)]
    by_cases hd : MAX_BYTES < bufLen (c0 ++ [b])
    · have hall : MAX_BYTES < bufLen (c0 ++ b :: rest) := by
        have : bufLen (c0 ++ b :: rest) = bufLen (c0 ++ [b]) + bufLen rest := by
          rw [show c0 ++ b :: rest = (c0 ++ [b]) ++ rest from by simp, bufLen_append]
        omega
      simp [hd, hall]
    · rw [tailUnderCap_of_le _ (Nat.not_lt.1 hd)]
      simp only [Nat.not_lt] at hd
      simp [Nat.not_lt.2 hd]

/-- Counterexample to claim C8: newest data is not always retained.  A
single chunk one byte over the 50 KiB cap is itself evicted by the drop
loop, so a stream consisting of that one non-empty chunk yields an empty
retained buffer and empty output text, despite the chunk being the newest
data. -/
theorem oversized_chunk_dropped :
    collectOutput [List.replicate (MAX_BYTES + 1) 0] = ([], true) ∧
    (runRestrictedBashResult [List.replicate (MAX_BYTES + 1) 0] (some 0)).2.1 = [] ∧
    List.replicate (MAX_BYTES + 1) (0 : Nat) ≠ [] := by
  have hb : bufLen [List.replicate (MAX_BYTES + 1) (0 : Nat)] = MAX_BYTES + 1 := by
    simp [bufLen]
  have h1 : collectOutput [List.replicate (MAX_BYTES + 1) 0] = ([], true) := by
    rw [collectOutput, List.foldl_cons, List.foldl_nil, onData]
    simp only [List.nil_append]
    rw [show dropOld [List.replicate (MAX_BYTES + 1) (0 : Nat)] false =
        dropOld [] true from by simp [dropOld, hb]]
    rfl
  refine ⟨h1, ?_, by simp⟩
  rw [runRestrictedBashResult, h1]
  simp [trimEndBytes]

/-- Claim C8, amended: the retained buffer is the suffix of the chunk stream
obtained by dropping oldest chunks while the buffered bytes exceed the 50 KiB
cap (a chunk larger than the cap is itself dropped, possibly leaving nothing);
the output text is the concatenation of that suffix with trailing whitespace
trimmed; the truncated flag is set exactly when the total stream size exceeds
the cap; and a reported exit code passes through unchanged. -/
theorem runRestrictedBash_output (stream : List (List Nat)) (code : Int) :
    collectOutput stream = (tailUnderCap stream, decide (MAX_BYTES < bufLen stream)) ∧
    (∃ k, tailUnderCap stream = stream.drop k) ∧
    bufLen (tailUnderCap stream) ≤ MAX_BYTES ∧
    runRestrictedBashResult stream (some code) =
      (code, trimEndBytes (tailUnderCap stream).flatten,
        decide (MAX_BYTES < bufLen stream)) := by
  have h1 : collectOutput stream =
      (tailUnderCap stream, decide (MAX_BYTES < bufLen stream)) := by
    rw [collectOutput]
    have hf := collect_fst stream [] false (by simp [bufLen])
    have hs := collect_snd stream [] false (by simp [bufLen])
    simp only [List.nil_append] at hf hs
    rw [show List.foldl onData ([], false) stream =
        ((List.foldl onData ([], false) stream).1,
          (List.foldl onData ([], false) stream).2) from rfl, hf, hs]
    simp
  refine ⟨h1, tailUnderCap_suffix stream, tailUnderCap_le stream, ?_⟩
  rw [runRestrictedBashResult, h1]
  simp
